import Mathlib

/-!
Shallow embedding of the `fast-map-cache` library
(`src/fast-cache.ts` and `src/fast-cache-ttl.ts`).

Modelling conventions:

* JS heap objects (`CacheNode`) live in an explicit node store `nodes`;
  node ids (`Nat`) play the role of object references, and the store is
  never shrunk (garbage collection is implicit — a node may stay in the
  store after it has left the index, exactly as a JS object stays alive
  while a list still references it).
* The intrusive doubly linked lists (the `prev`/`next` and
  `timePrev`/`timeNext` pointer pairs threaded through the nodes, with
  sentinel head/tail nodes) are modelled as lists of node ids:
  `recency` is the recency list head→tail (head = most recently used),
  `timeList` is the TTL list head→tail (head = oldest timestamp).
  Unlinking a node is `List.erase` of its id; splicing at the head is
  `List.cons`; splicing at the tail is append of `[id]`.
* A JS `Map` is an insertion-ordered association list with unique keys:
  `alookup` is `Map.get`, `aset` is `Map.set` (replace in place),
  `aerase` is `Map.delete`.
* `Date.now()` is passed explicitly as a `now : Nat` argument.
* Machine numbers in configuration are `Int` (so that the non-positive
  checks of the constructors are expressible); validated sizes and
  timestamps are `Nat`.  `hitRate` (a JS number division) is modelled as
  an exact rational.
* The `setInterval`/`clearInterval` timer of `autoCleanup` and
  `destroy()` is real-time behaviour and is not modelled; the
  `cleanup()` body it invokes is.
-/

section AssocList

variable {K A : Type} [DecidableEq K]

/-- Model of `Map.get`: lookup in an insertion-ordered association list. -/
def alookup : List (K × A) → K → Option A
  | [], _ => none
  | (k, a) :: rest, key => if key = k then some a else alookup rest key

/-- Model of `Map.set`: insert or replace in place. -/
def aset : List (K × A) → K → A → List (K × A)
  | [], key, a => [(key, a)]
  | (k, b) :: rest, key, a =>
      if key = k then (key, a) :: rest else (k, b) :: aset rest key a

/-- Model of `Map.delete`: remove the entry of a key. -/
def aerase : List (K × A) → K → List (K × A)
  | [], _ => []
  | (k, b) :: rest, key => if key = k then rest else (k, b) :: aerase rest key

theorem alookup_aset_self (l : List (K × A)) (k : K) (a : A) :
    alookup (aset l k a) k = some a := by
  induction l with
  | nil => simp [aset, alookup]
  | cons p rest ih =>
    obtain ⟨pk, pb⟩ := p
    by_cases h : k = pk
    · subst h; simp [aset, alookup]
    · simp [aset, alookup, h, ih]

theorem alookup_aset_of_ne (l : List (K × A)) {k k' : K} (a : A) (h : k' ≠ k) :
    alookup (aset l k a) k' = alookup l k' := by
  induction l with
  | nil => simp [aset, alookup, h]
  | cons p rest ih =>
    obtain ⟨pk, pb⟩ := p
    by_cases hk : k = pk
    · subst hk; simp [aset, alookup, h]
    · by_cases hk' : k' = pk
      · subst hk'; simp [aset, alookup, hk]
      · simp [aset, alookup, hk, hk', ih]

theorem alookup_aerase_of_ne (l : List (K × A)) {k k' : K} (h : k' ≠ k) :
    alookup (aerase l k) k' = alookup l k' := by
  induction l with
  | nil => simp [aerase]
  | cons p rest ih =>
    obtain ⟨pk, pb⟩ := p
    by_cases hk : k = pk
    · subst hk; simp [aerase, alookup, h]
    · by_cases hk' : k' = pk
      · subst hk'; simp [aerase, alookup, hk]
      · simp [aerase, alookup, hk, hk', ih]

theorem alookup_isSome_iff {l : List (K × A)} {k : K} :
    (alookup l k).isSome ↔ k ∈ l.map Prod.fst := by
  induction l with
  | nil => simp [alookup]
  | cons p rest ih =>
    obtain ⟨pk, pb⟩ := p
    by_cases hk : k = pk
    · subst hk; simp [alookup]
    · simp [alookup, hk, ih]

theorem alookup_eq_none_iff {l : List (K × A)} {k : K} :
    alookup l k = none ↔ k ∉ l.map Prod.fst := by
  rw [← alookup_isSome_iff, Option.not_isSome_iff_eq_none]

theorem alookup_aerase_self (l : List (K × A)) (k : K)
    (h : (l.map Prod.fst).Nodup) : alookup (aerase l k) k = none := by
  induction l with
  | nil => simp [aerase, alookup]
  | cons p rest ih =>
    obtain ⟨pk, pb⟩ := p
    simp only [List.map_cons, List.nodup_cons] at h
    by_cases hk : k = pk
    · subst hk
      simp only [aerase, if_pos rfl]
      exact alookup_eq_none_iff.mpr h.1
    · simp [aerase, hk, alookup, ih h.2]

theorem mem_of_alookup_eq_some {l : List (K × A)} {k : K} {a : A}
    (h : alookup l k = some a) : (k, a) ∈ l := by
  induction l with
  | nil => simp [alookup] at h
  | cons p rest ih =>
    obtain ⟨pk, pb⟩ := p
    by_cases hk : k = pk
    · subst hk
      simp [alookup] at h
      simp [h]
    · simp [alookup, hk] at h
      exact List.mem_cons_of_mem _ (ih h)

theorem map_fst_aset_of_none {l : List (K × A)} {k : K} (a : A)
    (h : alookup l k = none) :
    (aset l k a).map Prod.fst = l.map Prod.fst ++ [k] := by
  induction l with
  | nil => simp [aset]
  | cons p rest ih =>
    obtain ⟨pk, pb⟩ := p
    by_cases hk : k = pk
    · subst hk; simp [alookup] at h
    · simp [alookup, hk] at h
      simp [aset, hk, ih h]

theorem map_fst_aset_of_some {l : List (K × A)} {k : K} {b : A} (a : A)
    (h : alookup l k = some b) :
    (aset l k a).map Prod.fst = l.map Prod.fst := by
  induction l with
  | nil => simp [alookup] at h
  | cons p rest ih =>
    obtain ⟨pk, pb⟩ := p
    by_cases hk : k = pk
    · subst hk; simp [aset]
    · simp [alookup, hk] at h
      simp [aset, hk, ih h]

theorem length_aset_of_some {l : List (K × A)} {k : K} {b : A} (a : A)
    (h : alookup l k = some b) : (aset l k a).length = l.length := by
  have := map_fst_aset_of_some (l := l) (k := k) a h
  have h1 : ((aset l k a).map Prod.fst).length = (l.map Prod.fst).length := by rw [this]
  simpa using h1

theorem length_aset_of_none {l : List (K × A)} {k : K} (a : A)
    (h : alookup l k = none) : (aset l k a).length = l.length + 1 := by
  have := map_fst_aset_of_none (l := l) (k := k) a h
  have h1 : ((aset l k a).map Prod.fst).length = (l.map Prod.fst ++ [k]).length := by rw [this]
  simpa using h1

theorem aerase_of_none {l : List (K × A)} {k : K}
    (h : alookup l k = none) : aerase l k = l := by
  induction l with
  | nil => simp [aerase]
  | cons p rest ih =>
    obtain ⟨pk, pb⟩ := p
    by_cases hk : k = pk
    · subst hk; simp [alookup] at h
    · simp [alookup, hk] at h
      simp [aerase, hk, ih h]

theorem length_aerase_of_some {l : List (K × A)} {k : K} {b : A}
    (h : alookup l k = some b) : (aerase l k).length + 1 = l.length := by
  induction l with
  | nil => simp [alookup] at h
  | cons p rest ih =>
    obtain ⟨pk, pb⟩ := p
    by_cases hk : k = pk
    · subst hk; simp [aerase]
    · simp [alookup, hk] at h
      simp [aerase, hk, ih h]

theorem sublist_map_fst_aerase (l : List (K × A)) (k : K) :
    ((aerase l k).map Prod.fst).Sublist (l.map Prod.fst) := by
  induction l with
  | nil => simp [aerase]
  | cons p rest ih =>
    obtain ⟨pk, pb⟩ := p
    by_cases hk : k = pk
    · simp [aerase, hk]
    · simpa [aerase, hk] using ih.cons₂ pk

theorem nodup_map_fst_aerase {l : List (K × A)} (k : K)
    (h : (l.map Prod.fst).Nodup) : ((aerase l k).map Prod.fst).Nodup :=
  h.sublist (sublist_map_fst_aerase l k)

theorem mem_aset {l : List (K × A)} {k : K} {a : A} {p : K × A}
    (h : p ∈ aset l k a) : p.1 = k ∨ p ∈ l := by
  induction l with
  | nil =>
    simp only [aset, List.mem_singleton] at h
    subst h
    left; rfl
  | cons q rest ih =>
    obtain ⟨qk, qb⟩ := q
    by_cases hk : k = qk
    · subst hk
      simp only [aset, if_true, eq_self_iff_true, List.mem_cons] at h
      rcases h with h1 | h2
      · left; simp [h1]
      · right; exact List.mem_cons_of_mem _ h2
    · simp only [aset, if_neg hk, List.mem_cons] at h
      rcases h with h1 | h2
      · right; simp [h1]
      · rcases ih h2 with h' | h''
        · left; exact h'
        · right; exact List.mem_cons_of_mem _ h''

end AssocList

/-! ## Data model (`src/types.ts`, `src/fast-cache.ts`)

`CacheNode` keeps the data fields of the source's node type; its four
pointer fields (`prev`, `next`, `timePrev`, `timeNext`) are represented
by the position of the node's id in the `recency` and `timeList` lists
of the cache state. -/

structure CacheNode (K V : Type) where
  key : K
  value : V
  /-- Field `timestamp?`: absent until `FastCacheWithTTL.set` stamps the node. -/
  timestamp : Option Nat := none
deriving DecidableEq

/-- State of a `FastCache` object: the `cache` map (key → node reference),
the recency list (head = most recently used), the hit/miss counters, and
the node store (`nodes`, mapping node ids to live node objects).  `nextId`
is the next fresh node id. -/
structure FastCache (K V : Type) where
  maxSize : Nat
  nodes : List (Nat × CacheNode K V) := []
  cache : List (K × Nat) := []
  recency : List Nat := []
  hits : Nat := 0
  misses : Nat := 0
  nextId : Nat := 0
deriving DecidableEq

/-- Record `CacheStats` (the `expired` field is present only for the TTL cache). -/
structure CacheStats where
  hits : Nat
  misses : Nat
  hitRate : ℚ
  size : Nat
  capacity : Nat
  expired : Option Nat := none
deriving DecidableEq

namespace FastCache

variable {K V : Type} [DecidableEq K]

/-- State built by `new FastCache(maxSize)`, body after validation. -/
def init (maxSize : Nat) : FastCache K V :=
  { maxSize := maxSize }

/-- Constructor validation: `if (maxSize <= 0) throw new Error(...)`. -/
def mk? (maxSize : Int) : Except String (FastCache K V) :=
  if maxSize ≤ 0 then .error ("Cache size must be positive")
  else .ok (init maxSize.toNat)

/-- Method `addToHead(node)`: splice a node right after the head sentinel. -/
def addToHead (s : FastCache K V) (id : Nat) : FastCache K V :=
  { s with recency := id :: s.recency }

/-- Method `removeNode(node)`: unlink a node from the recency list. -/
def removeNode (s : FastCache K V) (id : Nat) : FastCache K V :=
  { s with recency := s.recency.erase id }

/-- Method `moveToHead(node)`: `removeNode` then `addToHead`. -/
def moveToHead (s : FastCache K V) (id : Nat) : FastCache K V :=
  (s.removeNode id).addToHead id

/-- Method `removeTail()`: drop the node before the tail sentinel (if the list is
nonempty) from the index and the recency list. -/
def removeTail (s : FastCache K V) : FastCache K V :=
  match s.recency.getLast? with
  | none => s                       -- lastNode === head sentinel
  | some id =>
    match alookup s.nodes id with
    | none => s                     -- unreachable: listed ids are allocated
    | some n =>
      { s with cache := aerase s.cache n.key, recency := s.recency.erase id }

/-- Method `get(key)`. -/
def get (s : FastCache K V) (key : K) : Option V × FastCache K V :=
  match alookup s.cache key with
  | none => (none, { s with misses := s.misses + 1 })
  | some id =>
    match alookup s.nodes id with
    | none => (none, s)             -- unreachable: the index holds live nodes
    | some n =>
      let s1 := s.moveToHead id
      (some n.value, { s1 with hits := s1.hits + 1 })

/-- Method `set(key, value)`. -/
def set (s : FastCache K V) (key : K) (value : V) : FastCache K V :=
  match alookup s.cache key with
  | some id =>
    match alookup s.nodes id with
    | none => s                     -- unreachable
    | some n =>
      -- update the existing node's value in place and refresh recency
      ({ s with nodes := aset s.nodes id { n with value := value } }).moveToHead id
  | none =>
    -- capacity check, then create the node, index it and splice at head
    let s1 := if s.cache.length ≥ s.maxSize then s.removeTail else s
    let id := s1.nextId
    ({ s1 with
        nodes := aset s1.nodes id { key := key, value := value },
        cache := aset s1.cache key id,
        nextId := id + 1 }).addToHead id

/-- Method `delete(key)`. -/
def delete (s : FastCache K V) (key : K) : Bool × FastCache K V :=
  match alookup s.cache key with
  | none => (false, s)
  | some id =>
    (true, { s with cache := aerase s.cache key, recency := s.recency.erase id })

/-- Method `clear()`: reset map, recency sentinels and counters (the node store is
dropped to the garbage collector; capacity is kept). -/
def clear (s : FastCache K V) : FastCache K V :=
  { s with cache := [], recency := [], hits := 0, misses := 0 }

/-- Method `has(key)`. -/
def hasKey (s : FastCache K V) (key : K) : Bool :=
  (alookup s.cache key).isSome

/-- Accessor `get size()`. -/
def size (s : FastCache K V) : Nat :=
  s.cache.length

/-- Method `getStats()`. -/
def getStats (s : FastCache K V) : CacheStats :=
  let total := s.hits + s.misses
  { hits := s.hits
    misses := s.misses
    hitRate := if total > 0 then (s.hits : ℚ) / (total : ℚ) else 0
    size := s.size
    capacity := s.maxSize }

end FastCache

/-! ## TTL extension (`src/fast-cache-ttl.ts`) -/

/-- Record `CacheOptions` for `FastCacheWithTTL`.  `cleanupInterval` is read only
to schedule the timer; the constructor never validates it. -/
structure CacheOptions where
  maxSize : Int
  ttl : Option Int := none
  autoCleanup : Bool := false
  cleanupInterval : Option Int := none
deriving DecidableEq

/-- State of a `FastCacheWithTTL` object: the inherited `FastCache` state
plus the validated `ttl` (0 = disabled), the time-ordered list and the
`expired` counter.  The `cleanupTimer` handle is not modelled. -/
structure FastCacheWithTTL (K V : Type) extends FastCache K V where
  ttl : Nat := 0
  autoCleanup : Bool := false
  timeList : List Nat := []
  expired : Nat := 0
deriving DecidableEq

namespace FastCacheWithTTL

variable {K V : Type} [DecidableEq K]

/-- Constructor of the TTL cache: `super(options.maxSize)`, then
`if (options.ttl !== undefined && options.ttl <= 0) throw`; `ttl` defaults
to 0 (disabled).  Note the constructor performs no check at all on
`options.cleanupInterval`. -/
def mk? (o : CacheOptions) : Except String (FastCacheWithTTL K V) :=
  match FastCache.mk? (K := K) (V := V) o.maxSize with
  | .error e => .error e
  | .ok base =>
    match o.ttl with
    | some t =>
      if t ≤ 0 then .error ("TTL must be positive")
      else .ok { toFastCache := base, ttl := t.toNat, autoCleanup := o.autoCleanup }
    | none => .ok { toFastCache := base, ttl := 0, autoCleanup := o.autoCleanup }

/-- Method `isExpired(node, now?)`. -/
def isExpired (s : FastCacheWithTTL K V) (n : CacheNode K V) (now : Nat) : Bool :=
  if s.ttl = 0 then false
  else
    match n.timestamp with
    | none => false
    | some ts => now - ts > s.ttl

/-- Method `_addToTimeListTail(node)`. -/
def addToTimeListTail (s : FastCacheWithTTL K V) (id : Nat) : FastCacheWithTTL K V :=
  { s with timeList := s.timeList ++ [id] }

/-- Method `_removeFromTimeList(node)`. -/
def removeFromTimeList (s : FastCacheWithTTL K V) (id : Nat) : FastCacheWithTTL K V :=
  { s with timeList := s.timeList.erase id }

/-- Method `_moveToTimeListTail(node)`. -/
def moveToTimeListTail (s : FastCacheWithTTL K V) (id : Nat) : FastCacheWithTTL K V :=
  (s.removeFromTimeList id).addToTimeListTail id

/-- Override of `delete(key)`: unlink from the time list, then `super.delete`. -/
def delete (s : FastCacheWithTTL K V) (key : K) : Bool × FastCacheWithTTL K V :=
  match alookup s.cache key with
  | none => (false, s)
  | some id =>
    let s1 := s.removeFromTimeList id
    let r := FastCache.delete s1.toFastCache key
    (r.1, { s1 with toFastCache := r.2 })

/-- Override of `get(key)`: lazy expiration before delegating to `super.get`. -/
def get (s : FastCacheWithTTL K V) (key : K) (now : Nat) :
    Option V × FastCacheWithTTL K V :=
  match alookup s.cache key with
  | none => (none, { s with misses := s.misses + 1 })
  | some id =>
    match alookup s.nodes id with
    | none => (none, s)             -- unreachable
    | some n =>
      if s.isExpired n now then
        let r := s.delete key       -- this.delete(key): both lists
        (none, { r.2 with expired := r.2.expired + 1, misses := r.2.misses + 1 })
      else
        let r := FastCache.get s.toFastCache key   -- super.get(key)
        (r.1, { s with toFastCache := r.2 })

/-- Override of `set(key, value)`.  The source computes
`const now = this.ttl > 0 ? Date.now() : 0`; here the sampled clock is the
explicit `now` argument and the stored stamp is `stamp`. -/
def set (s : FastCacheWithTTL K V) (key : K) (value : V) (now : Nat) :
    FastCacheWithTTL K V :=
  let existing := alookup s.cache key
  let stamp := if 0 < s.ttl then now else 0
  let s1 : FastCacheWithTTL K V :=
    { s with toFastCache := FastCache.set s.toFastCache key value }  -- super.set
  match alookup s1.cache key with
  | none => s1                      -- unreachable: the key was just set
  | some id =>
    match alookup s1.nodes id with
    | none => s1                    -- unreachable
    | some n =>
      let s2 := { s1 with nodes := aset s1.nodes id { n with timestamp := some stamp } }
      match existing with
      | some _ => s2.moveToTimeListTail id
      | none => s2.addToTimeListTail id

/-- Override of `has(key)`: lazy deletion of an expired entry. -/
def hasKey (s : FastCacheWithTTL K V) (key : K) (now : Nat) :
    Bool × FastCacheWithTTL K V :=
  match alookup s.cache key with
  | none => (false, s)
  | some id =>
    match alookup s.nodes id with
    | none => (true, s)             -- unreachable
    | some n =>
      if s.isExpired n now then
        let r := s.delete key
        (false, { r.2 with expired := r.2.expired + 1 })
      else
        (true, s)

/-- Override of `clear()`. -/
def clear (s : FastCacheWithTTL K V) : FastCacheWithTTL K V :=
  let base := FastCache.clear s.toFastCache
  { s with toFastCache := base, timeList := [], expired := 0 }

/-- Override of `getStats()`. -/
def getStats (s : FastCacheWithTTL K V) : CacheStats :=
  { FastCache.getStats s.toFastCache with expired := some s.expired }

/-- Body of the `while` loop of `cleanup()`.  The JS loop re-reads
`this.timeHead.timeNext` after each deletion; `fuel` bounds the number of
iterations — `none` means the loop has not terminated within `fuel`
iterations. -/
def cleanupLoop (now : Nat) :
    Nat → FastCacheWithTTL K V → Nat → Option (FastCacheWithTTL K V × Nat)
  | 0, _, _ => none
  | fuel + 1, s, count =>
    match s.timeList.head? with
    | none => some (s, count)       -- currentNode === this.timeTail
    | some id =>
      match alookup s.nodes id with
      | none => some (s, count)     -- unreachable: listed ids are allocated
      | some n =>
        if s.isExpired n now then
          let r := s.delete n.key   -- this.delete(currentNode.key)
          cleanupLoop now fuel { r.2 with expired := r.2.expired + 1 } (count + 1)
        else
          some (s, count)           -- first live node: stop (list is sorted)

/-- Method `cleanup()`: active sweep; returns the final state and the removed
count, or `none` when the loop does not finish within `fuel` iterations. -/
def cleanup (s : FastCacheWithTTL K V) (now : Nat) (fuel : Nat) :
    Option (FastCacheWithTTL K V × Nat) :=
  if s.ttl = 0 then some (s, 0)
  else cleanupLoop now fuel s 0

end FastCacheWithTTL

/-! ## Characterizations of the LRU core operations -/

namespace FastCache

variable {K V : Type} [DecidableEq K]

theorem get_eq_of_none {s : FastCache K V} {key : K}
    (h : alookup s.cache key = none) :
    s.get key = (none, { s with misses := s.misses + 1 }) := by
  unfold get
  rw [h]

theorem get_eq_of_some {s : FastCache K V} {key : K} {id : Nat} {n : CacheNode K V}
    (hk : alookup s.cache key = some id) (hn : alookup s.nodes id = some n) :
    s.get key =
      (some n.value,
        { s with recency := id :: s.recency.erase id, hits := s.hits + 1 }) := by
  unfold get moveToHead removeNode addToHead
  rw [hk]
  dsimp only
  rw [hn]

theorem removeTail_eq {s : FastCache K V} {tid : Nat} {n : CacheNode K V}
    (hlast : s.recency.getLast? = some tid) (hn : alookup s.nodes tid = some n) :
    s.removeTail =
      { s with cache := aerase s.cache n.key, recency := s.recency.erase tid } := by
  unfold removeTail
  rw [hlast]
  dsimp only
  rw [hn]

theorem set_eq_of_some {s : FastCache K V} {key : K} {id : Nat} {n : CacheNode K V}
    (hk : alookup s.cache key = some id) (hn : alookup s.nodes id = some n)
    (value : V) :
    s.set key value =
      { s with
          nodes := aset s.nodes id { n with value := value },
          recency := id :: s.recency.erase id } := by
  unfold set moveToHead removeNode addToHead
  rw [hk]
  dsimp only
  rw [hn]

theorem set_eq_of_none_fits {s : FastCache K V} {key : K}
    (hk : alookup s.cache key = none) (hlt : s.cache.length < s.maxSize)
    (value : V) :
    s.set key value =
      { s with
          nodes := aset s.nodes s.nextId { key := key, value := value },
          cache := aset s.cache key s.nextId,
          recency := s.nextId :: s.recency,
          nextId := s.nextId + 1 } := by
  unfold set addToHead
  rw [hk]
  dsimp only
  rw [if_neg (by omega)]

theorem set_eq_of_none_full {s : FastCache K V} {key : K}
    (hk : alookup s.cache key = none) (hge : s.cache.length ≥ s.maxSize)
    (value : V) :
    s.set key value =
      { s.removeTail with
          nodes := aset s.removeTail.nodes s.removeTail.nextId
            { key := key, value := value },
          cache := aset s.removeTail.cache key s.removeTail.nextId,
          recency := s.removeTail.nextId :: s.removeTail.recency,
          nextId := s.removeTail.nextId + 1 } := by
  unfold set addToHead
  rw [hk]
  dsimp only
  rw [if_pos hge]

theorem delete_eq_of_none {s : FastCache K V} {key : K}
    (h : alookup s.cache key = none) : s.delete key = (false, s) := by
  unfold delete
  rw [h]

theorem delete_eq_of_some {s : FastCache K V} {key : K} {id : Nat}
    (h : alookup s.cache key = some id) :
    s.delete key =
      (true, { s with cache := aerase s.cache key, recency := s.recency.erase id }) := by
  unfold delete
  rw [h]

end FastCache

/-! ## Coherence invariant of the LRU core -/

namespace FastCache

variable {K V : Type} [DecidableEq K]

/-- Coherence of a `FastCache` state: unique keys in the index, unique
nodes in the recency list, the index and the recency list reference
exactly the same nodes, and all referenced ids are allocated (below
`nextId`). -/
structure Inv (s : FastCache K V) : Prop where
  maxPos : 0 < s.maxSize
  cacheNodup : (s.cache.map Prod.fst).Nodup
  recNodup : s.recency.Nodup
  cacheToRec : ∀ k id, alookup s.cache k = some id →
    id ∈ s.recency ∧ ∃ n, alookup s.nodes id = some n ∧ n.key = k
  recToCache : ∀ id, id ∈ s.recency →
    ∃ n, alookup s.nodes id = some n ∧ alookup s.cache n.key = some id
  recLt : ∀ id, id ∈ s.recency → id < s.nextId
  nodesLt : ∀ p, p ∈ s.nodes → p.1 < s.nextId
  nodesNodup : (s.nodes.map Prod.fst).Nodup

theorem Inv.key_inj {s : FastCache K V} (h : Inv s) {k k' : K} {id : Nat}
    (h1 : alookup s.cache k = some id) (h2 : alookup s.cache k' = some id) :
    k = k' := by
  obtain ⟨-, n, hn, hkey⟩ := h.cacheToRec k id h1
  obtain ⟨-, n', hn', hkey'⟩ := h.cacheToRec k' id h2
  rw [hn] at hn'
  cases hn'
  rw [← hkey, ← hkey']

theorem Inv.node_of_cache {s : FastCache K V} (h : Inv s) {k : K} {id : Nat}
    (h1 : alookup s.cache k = some id) :
    ∃ n, alookup s.nodes id = some n ∧ n.key = k :=
  (h.cacheToRec k id h1).2

theorem inv_init (c : Nat) (hc : 0 < c) : Inv (init (K := K) (V := V) c) := by
  refine ⟨hc, ?_, ?_, ?_, ?_, ?_, ?_, ?_⟩ <;> simp [init, alookup]

/-- Under coherence, a nonempty index forces a nonempty recency list and a
well-defined tail node that the index references. -/
theorem Inv.exists_tail {s : FastCache K V} (h : Inv s) (hne : s.cache ≠ []) :
    ∃ tid n, s.recency.getLast? = some tid ∧ alookup s.nodes tid = some n ∧
      alookup s.cache n.key = some tid := by
  obtain ⟨p, rest, hcache⟩ := List.exists_cons_of_ne_nil hne
  obtain ⟨k0, i0⟩ := p
  have hl : alookup s.cache k0 = some i0 := by
    rw [hcache]; simp [alookup]
  have hi0 : i0 ∈ s.recency := (h.cacheToRec k0 i0 hl).1
  have hrne : s.recency ≠ [] := by
    intro hnil; rw [hnil] at hi0; simp at hi0
  obtain ⟨tid, htid⟩ : ∃ tid, s.recency.getLast? = some tid := by
    cases hl' : s.recency.getLast? with
    | none => exact absurd (List.getLast?_eq_none_iff.mp hl') hrne
    | some a => exact ⟨a, rfl⟩
  have htidmem : tid ∈ s.recency := by
    obtain ⟨hne', rfl⟩ :=
      List.mem_getLast?_eq_getLast (l := s.recency) (x := tid) (by rw [htid]; rfl)
    exact List.getLast_mem hne'
  obtain ⟨n, hn, hcn⟩ := h.recToCache tid htidmem
  exact ⟨tid, n, htid, hn, hcn⟩

theorem mem_of_getLast?_rec {l : List Nat} {a : Nat} (h : l.getLast? = some a) :
    a ∈ l := by
  obtain ⟨hne, rfl⟩ := List.mem_getLast?_eq_getLast (l := l) (x := a) (by rw [h]; rfl)
  exact List.getLast_mem hne

theorem removeTail_eq_self_of_none {s : FastCache K V}
    (hlast : s.recency.getLast? = none) : s.removeTail = s := by
  unfold removeTail
  rw [hlast]

theorem removeTail_eq_self_of_no_node {s : FastCache K V} {tid : Nat}
    (hlast : s.recency.getLast? = some tid)
    (hn : alookup s.nodes tid = none) : s.removeTail = s := by
  unfold removeTail
  rw [hlast]
  dsimp only
  rw [hn]

theorem inv_removeTail {s : FastCache K V} (h : Inv s) : Inv s.removeTail := by
  cases hlast : s.recency.getLast? with
  | none => rw [removeTail_eq_self_of_none hlast]; exact h
  | some tid =>
    cases hn : alookup s.nodes tid with
    | none => rw [removeTail_eq_self_of_no_node hlast hn]; exact h
    | some n =>
      rw [removeTail_eq hlast hn]
      have htidmem : tid ∈ s.recency := mem_of_getLast?_rec hlast
      obtain ⟨n', hn', hcn⟩ := h.recToCache tid htidmem
      rw [hn] at hn'
      cases hn'
      refine ⟨h.maxPos, nodup_map_fst_aerase _ h.cacheNodup, h.recNodup.erase tid,
        ?_, ?_, ?_, h.nodesLt, h.nodesNodup⟩
      · intro k id hkid
        have hkne : k ≠ n.key := by
          intro hkeq
          rw [hkeq, alookup_aerase_self _ _ h.cacheNodup] at hkid
          exact Option.noConfusion hkid
        rw [alookup_aerase_of_ne _ hkne] at hkid
        obtain ⟨hmem, n'', hn'', hkey⟩ := h.cacheToRec k id hkid
        have hidne : id ≠ tid := by
          intro hideq
          exact hkne (h.key_inj (hideq ▸ hkid) hcn)
        exact ⟨(h.recNodup.mem_erase_iff).mpr ⟨hidne, hmem⟩, n'', hn'', hkey⟩
      · intro id hid
        obtain ⟨hidne, hidmem⟩ := (h.recNodup.mem_erase_iff).mp hid
        obtain ⟨n'', hn'', hc''⟩ := h.recToCache id hidmem
        have hkne : n''.key ≠ n.key := by
          intro hkeq
          rw [hkeq, hcn] at hc''
          exact hidne (Option.some.inj hc'').symm
        exact ⟨n'', hn'', by rw [alookup_aerase_of_ne _ hkne]; exact hc''⟩
      · intro id hid
        exact h.recLt id (List.mem_of_mem_erase hid)

end FastCache

namespace FastCache

variable {K V : Type} [DecidableEq K]

theorem get_eq_of_no_node {s : FastCache K V} {key : K} {id : Nat}
    (hk : alookup s.cache key = some id) (hn : alookup s.nodes id = none) :
    s.get key = (none, s) := by
  unfold get
  rw [hk]
  dsimp only
  rw [hn]

theorem set_eq_self_of_no_node {s : FastCache K V} {key : K} {id : Nat}
    (hk : alookup s.cache key = some id) (hn : alookup s.nodes id = none)
    (value : V) : s.set key value = s := by
  unfold set
  rw [hk]
  dsimp only
  rw [hn]

theorem inv_get {s : FastCache K V} (h : Inv s) (key : K) : Inv (s.get key).2 := by
  cases hk : alookup s.cache key with
  | none =>
    rw [get_eq_of_none hk]
    exact ⟨h.maxPos, h.cacheNodup, h.recNodup, h.cacheToRec, h.recToCache,
      h.recLt, h.nodesLt, h.nodesNodup⟩
  | some id =>
    cases hn : alookup s.nodes id with
    | none => rw [get_eq_of_no_node hk hn]; exact h
    | some n =>
      rw [get_eq_of_some hk hn]
      have hidmem : id ∈ s.recency := (h.cacheToRec key id hk).1
      have hkeyn : n.key = key := by
        obtain ⟨n0, hn0, hkey0⟩ := h.node_of_cache hk
        rw [hn] at hn0
        cases hn0
        exact hkey0
      refine ⟨h.maxPos, h.cacheNodup, ?_, ?_, ?_, ?_, h.nodesLt, h.nodesNodup⟩
      · exact List.nodup_cons.mpr ⟨h.recNodup.not_mem_erase, h.recNodup.erase id⟩
      · intro k' id' hl'
        obtain ⟨hm, n', hn', hkey'⟩ := h.cacheToRec k' id' hl'
        refine ⟨?_, n', hn', hkey'⟩
        by_cases hid : id' = id
        · subst hid; exact List.mem_cons_self _ _
        · exact List.mem_cons_of_mem _ ((h.recNodup.mem_erase_iff).mpr ⟨hid, hm⟩)
      · intro id' hid'
        rcases List.mem_cons.mp hid' with rfl | hmem
        · exact ⟨n, hn, by rw [hkeyn]; exact hk⟩
        · exact h.recToCache id' (List.mem_of_mem_erase hmem)
      · intro id' hid'
        rcases List.mem_cons.mp hid' with rfl | hmem
        · exact h.recLt id' hidmem
        · exact h.recLt id' (List.mem_of_mem_erase hmem)

theorem inv_delete {s : FastCache K V} (h : Inv s) (key : K) :
    Inv (s.delete key).2 := by
  cases hk : alookup s.cache key with
  | none => rw [delete_eq_of_none hk]; exact h
  | some id =>
    rw [delete_eq_of_some hk]
    obtain ⟨hidmem, n, hn, hkeyn⟩ := h.cacheToRec key id hk
    refine ⟨h.maxPos, nodup_map_fst_aerase _ h.cacheNodup, h.recNodup.erase id,
      ?_, ?_, ?_, h.nodesLt, h.nodesNodup⟩
    · intro k' id' hl'
      have hkne : k' ≠ key := by
        intro hkeq
        rw [hkeq, alookup_aerase_self _ _ h.cacheNodup] at hl'
        exact Option.noConfusion hl'
      rw [alookup_aerase_of_ne _ hkne] at hl'
      obtain ⟨hm, n', hn', hkey'⟩ := h.cacheToRec k' id' hl'
      have hidne : id' ≠ id := by
        intro hideq
        exact hkne (h.key_inj (hideq ▸ hl') hk)
      exact ⟨(h.recNodup.mem_erase_iff).mpr ⟨hidne, hm⟩, n', hn', hkey'⟩
    · intro id' hid'
      obtain ⟨hidne, hidmem'⟩ := (h.recNodup.mem_erase_iff).mp hid'
      obtain ⟨n', hn', hc'⟩ := h.recToCache id' hidmem'
      have hkne : n'.key ≠ key := by
        intro hkeq
        rw [hkeq, hk] at hc'
        exact hidne (Option.some.inj hc').symm
      exact ⟨n', hn', by rw [alookup_aerase_of_ne _ hkne]; exact hc'⟩
    · intro id' hid'
      exact h.recLt id' (List.mem_of_mem_erase hid')

theorem inv_clear {s : FastCache K V} (h : Inv s) : Inv s.clear := by
  unfold clear
  refine ⟨h.maxPos, ?_, ?_, ?_, ?_, ?_, h.nodesLt, h.nodesNodup⟩ <;> simp [alookup]

end FastCache

namespace FastCache

variable {K V : Type} [DecidableEq K]

theorem Inv.fresh_node_none {s : FastCache K V} (h : Inv s) :
    alookup s.nodes s.nextId = none := by
  cases hx : alookup s.nodes s.nextId with
  | none => rfl
  | some x =>
    have := h.nodesLt _ (mem_of_alookup_eq_some hx)
    omega

theorem Inv.fresh_not_mem_recency {s : FastCache K V} (h : Inv s) :
    s.nextId ∉ s.recency := by
  intro hm
  have := h.recLt _ hm
  omega

theorem alookup_removeTail_none {s : FastCache K V} (h : Inv s) {key : K}
    (hk : alookup s.cache key = none) :
    alookup s.removeTail.cache key = none := by
  cases hlast : s.recency.getLast? with
  | none => rw [removeTail_eq_self_of_none hlast]; exact hk
  | some tid =>
    cases hn : alookup s.nodes tid with
    | none => rw [removeTail_eq_self_of_no_node hlast hn]; exact hk
    | some n =>
      rw [removeTail_eq hlast hn]
      dsimp only
      by_cases hkey : key = n.key
      · rw [hkey]; exact alookup_aerase_self _ _ h.cacheNodup
      · rw [alookup_aerase_of_ne _ hkey]; exact hk

theorem inv_insert_fresh {s1 : FastCache K V} (h1 : Inv s1) {key : K}
    (hk : alookup s1.cache key = none) (value : V) :
    Inv { s1 with
            nodes := aset s1.nodes s1.nextId { key := key, value := value },
            cache := aset s1.cache key s1.nextId,
            recency := s1.nextId :: s1.recency,
            nextId := s1.nextId + 1 } := by
  refine ⟨h1.maxPos, ?_, ?_, ?_, ?_, ?_, ?_, ?_⟩
  · dsimp only
    rw [map_fst_aset_of_none _ hk]
    refine List.nodup_append.mpr ⟨h1.cacheNodup, List.nodup_singleton _, ?_⟩
    intro a ha hb
    rw [List.mem_singleton] at hb
    subst hb
    exact (alookup_eq_none_iff.mp hk) ha
  · exact List.nodup_cons.mpr ⟨h1.fresh_not_mem_recency, h1.recNodup⟩
  · dsimp only
    intro k' id' hl'
    by_cases hkey : k' = key
    · subst hkey
      rw [alookup_aset_self] at hl'
      cases hl'
      exact ⟨List.mem_cons_self _ _,
        { key := k', value := value }, alookup_aset_self _ _ _, rfl⟩
    · rw [alookup_aset_of_ne _ _ hkey] at hl'
      obtain ⟨hm, n', hn', hkey'⟩ := h1.cacheToRec k' id' hl'
      have hid'lt := h1.recLt id' hm
      refine ⟨List.mem_cons_of_mem _ hm, n', ?_, hkey'⟩
      rw [alookup_aset_of_ne _ _ (by omega : id' ≠ s1.nextId)]
      exact hn'
  · dsimp only
    intro id' hid'
    rcases List.mem_cons.mp hid' with rfl | hm
    · exact ⟨{ key := key, value := value }, alookup_aset_self _ _ _,
        alookup_aset_self _ _ _⟩
    · obtain ⟨n', hn', hc'⟩ := h1.recToCache id' hm
      have hid'lt := h1.recLt id' hm
      have hkne : n'.key ≠ key := by
        intro hkeq
        rw [hkeq, hk] at hc'
        exact Option.noConfusion hc'
      refine ⟨n', ?_, ?_⟩
      · rw [alookup_aset_of_ne _ _ (by omega : id' ≠ s1.nextId)]
        exact hn'
      · rw [alookup_aset_of_ne _ _ hkne]
        exact hc'
  · dsimp only
    intro id' hid'
    rcases List.mem_cons.mp hid' with rfl | hm
    · omega
    · have := h1.recLt id' hm
      omega
  · dsimp only
    intro p hp
    rcases mem_aset hp with hh | hh
    · omega
    · have := h1.nodesLt p hh
      omega
  · dsimp only
    rw [map_fst_aset_of_none _ h1.fresh_node_none]
    refine List.nodup_append.mpr ⟨h1.nodesNodup, List.nodup_singleton _, ?_⟩
    intro a ha hb
    rw [List.mem_singleton] at hb
    subst hb
    obtain ⟨p, hp, hpa⟩ := List.mem_map.mp ha
    have := h1.nodesLt p hp
    omega

theorem inv_set {s : FastCache K V} (h : Inv s) (key : K) (value : V) :
    Inv (s.set key value) := by
  cases hk : alookup s.cache key with
  | some id =>
    cases hn : alookup s.nodes id with
    | none => rw [set_eq_self_of_no_node hk hn]; exact h
    | some n =>
      rw [set_eq_of_some hk hn]
      have hidmem : id ∈ s.recency := (h.cacheToRec key id hk).1
      have hkeyn : n.key = key := by
        obtain ⟨n0, hn0, hkey0⟩ := h.node_of_cache hk
        rw [hn] at hn0
        cases hn0
        exact hkey0
      have hidlt : id < s.nextId := h.nodesLt _ (mem_of_alookup_eq_some hn)
      refine ⟨h.maxPos, h.cacheNodup, ?_, ?_, ?_, ?_, ?_, ?_⟩
      · exact List.nodup_cons.mpr ⟨h.recNodup.not_mem_erase, h.recNodup.erase id⟩
      · dsimp only
        intro k' id' hl'
        obtain ⟨hm, n', hn', hkey'⟩ := h.cacheToRec k' id' hl'
        by_cases hid : id' = id
        · subst hid
          refine ⟨List.mem_cons_self _ _, { n with value := value },
            alookup_aset_self _ _ _, ?_⟩
          rw [hn] at hn'
          cases hn'
          exact hkey'
        · refine ⟨List.mem_cons_of_mem _ ((h.recNodup.mem_erase_iff).mpr ⟨hid, hm⟩),
            n', ?_, hkey'⟩
          rw [alookup_aset_of_ne _ _ hid]
          exact hn'
      · dsimp only
        intro id' hid'
        rcases List.mem_cons.mp hid' with rfl | hm
        · refine ⟨{ n with value := value }, alookup_aset_self _ _ _, ?_⟩
          show alookup s.cache n.key = some id'
          rw [hkeyn]
          exact hk
        · obtain ⟨n', hn', hc'⟩ := h.recToCache id' (List.mem_of_mem_erase hm)
          have hid : id' ≠ id := ((h.recNodup.mem_erase_iff).mp hm).1
          refine ⟨n', ?_, hc'⟩
          rw [alookup_aset_of_ne _ _ hid]
          exact hn'
      · intro id' hid'
        rcases List.mem_cons.mp hid' with rfl | hm
        · exact hidlt
        · exact h.recLt id' (List.mem_of_mem_erase hm)
      · dsimp only
        intro p hp
        rcases mem_aset hp with hh | hh
        · rw [hh]; exact hidlt
        · exact h.nodesLt p hh
      · dsimp only
        rw [map_fst_aset_of_some _ hn]
        exact h.nodesNodup
  | none =>
    by_cases hfull : s.cache.length ≥ s.maxSize
    · rw [set_eq_of_none_full hk hfull]
      exact inv_insert_fresh (inv_removeTail h) (alookup_removeTail_none h hk) value
    · rw [set_eq_of_none_fits hk (by omega)]
      exact inv_insert_fresh h hk value

end FastCache

namespace FastCache

variable {K V : Type} [DecidableEq K]

theorem size_set_le {s : FastCache K V} (h : Inv s) (hle : s.size ≤ s.maxSize)
    (key : K) (value : V) : (s.set key value).size ≤ s.maxSize := by
  cases hk : alookup s.cache key with
  | some id =>
    cases hn : alookup s.nodes id with
    | none => rw [set_eq_self_of_no_node hk hn]; exact hle
    | some n => rw [set_eq_of_some hk hn]; exact hle
  | none =>
    by_cases hfull : s.cache.length ≥ s.maxSize
    · rw [set_eq_of_none_full hk hfull]
      have hne : s.cache ≠ [] := by
        intro h0
        rw [h0] at hfull
        simp at hfull
        have := h.maxPos
        omega
      obtain ⟨tid, n, hlast, hn, hcn⟩ := h.exists_tail hne
      have hrt := removeTail_eq hlast hn
      have hlen : s.removeTail.cache.length + 1 = s.cache.length := by
        rw [hrt]
        exact length_aerase_of_some hcn
      have hkeep : alookup s.removeTail.cache key = none :=
        alookup_removeTail_none h hk
      show (aset s.removeTail.cache key s.removeTail.nextId).length ≤ s.maxSize
      rw [length_aset_of_none _ hkeep]
      have : s.cache.length ≤ s.maxSize := hle
      omega
    · rw [set_eq_of_none_fits hk (by omega)]
      show (aset s.cache key s.nextId).length ≤ s.maxSize
      rw [length_aset_of_none _ hk]
      have : s.cache.length < s.maxSize := by omega
      omega

theorem maxSize_removeTail (s : FastCache K V) :
    s.removeTail.maxSize = s.maxSize := by
  cases hlast : s.recency.getLast? with
  | none => rw [removeTail_eq_self_of_none hlast]
  | some tid =>
    cases hn : alookup s.nodes tid with
    | none => rw [removeTail_eq_self_of_no_node hlast hn]
    | some n => rw [removeTail_eq hlast hn]

theorem maxSize_set (s : FastCache K V) (key : K) (value : V) :
    (s.set key value).maxSize = s.maxSize := by
  cases hk : alookup s.cache key with
  | some id =>
    cases hn : alookup s.nodes id with
    | none => rw [set_eq_self_of_no_node hk hn]
    | some n => rw [set_eq_of_some hk hn]
  | none =>
    by_cases hfull : s.cache.length ≥ s.maxSize
    · rw [set_eq_of_none_full hk hfull]
      show s.removeTail.maxSize = s.maxSize
      exact maxSize_removeTail s
    · rw [set_eq_of_none_fits hk (by omega)]

/-- Sequential (`setMany`-style) application of `set` calls. -/
def runSets (s : FastCache K V) : List (K × V) → FastCache K V
  | [] => s
  | (k, v) :: rest => runSets (s.set k v) rest

theorem runSets_invariant {s : FastCache K V} (h : Inv s)
    (hle : s.size ≤ s.maxSize) (ops : List (K × V)) :
    Inv (runSets s ops) ∧ (runSets s ops).size ≤ (runSets s ops).maxSize ∧
      (runSets s ops).maxSize = s.maxSize := by
  induction ops generalizing s with
  | nil => exact ⟨h, hle, rfl⟩
  | cons p rest ih =>
    obtain ⟨k, v⟩ := p
    have h' := inv_set h k v
    have hle' : (s.set k v).size ≤ (s.set k v).maxSize := by
      rw [maxSize_set]
      exact size_set_le h hle k v
    obtain ⟨a, b, c⟩ := ih h' hle'
    refine ⟨a, b, ?_⟩
    show ((s.set k v).runSets rest).maxSize = s.maxSize
    rw [c, maxSize_set]

end FastCache

namespace FastCache

variable {K V : Type} [DecidableEq K]

/-- A recorded LRU-core operation, for operation traces. -/
inductive CacheOp (K V : Type) where
  | setOp (k : K) (v : V)
  | getOp (k : K)
  | delOp (k : K)

def runOp (s : FastCache K V) : CacheOp K V → FastCache K V
  | .setOp k v => s.set k v
  | .getOp k => (s.get k).2
  | .delOp k => (s.delete k).2

def runOps (s : FastCache K V) : List (CacheOp K V) → FastCache K V
  | [] => s
  | op :: rest => runOps (runOp s op) rest

/-- Specification-side hit count: the number of `get` operations of the
trace that find their key in the index at the moment of the call. -/
def specHits (s : FastCache K V) : List (CacheOp K V) → Nat
  | [] => 0
  | .setOp k v :: rest => specHits (s.set k v) rest
  | .getOp k :: rest =>
      (if (alookup s.cache k).isSome then 1 else 0) + specHits (s.get k).2 rest
  | .delOp k :: rest => specHits (s.delete k).2 rest

/-- Specification-side miss count: the number of `get` operations of the
trace that do not find their key. -/
def specMisses (s : FastCache K V) : List (CacheOp K V) → Nat
  | [] => 0
  | .setOp k v :: rest => specMisses (s.set k v) rest
  | .getOp k :: rest =>
      (if (alookup s.cache k).isSome then 0 else 1) + specMisses (s.get k).2 rest
  | .delOp k :: rest => specMisses (s.delete k).2 rest

theorem counters_get {s : FastCache K V} (h : Inv s) (k : K) :
    (s.get k).2.hits = s.hits + (if (alookup s.cache k).isSome then 1 else 0) ∧
    (s.get k).2.misses = s.misses + (if (alookup s.cache k).isSome then 0 else 1) := by
  cases hk : alookup s.cache k with
  | none => rw [get_eq_of_none hk]; simp
  | some id =>
    obtain ⟨n, hn, -⟩ := h.node_of_cache hk
    rw [get_eq_of_some hk hn]
    simp

theorem counters_removeTail (s : FastCache K V) :
    s.removeTail.hits = s.hits ∧ s.removeTail.misses = s.misses := by
  cases hlast : s.recency.getLast? with
  | none => rw [removeTail_eq_self_of_none hlast]; exact ⟨rfl, rfl⟩
  | some tid =>
    cases hn : alookup s.nodes tid with
    | none => rw [removeTail_eq_self_of_no_node hlast hn]; exact ⟨rfl, rfl⟩
    | some n => rw [removeTail_eq hlast hn]; exact ⟨rfl, rfl⟩

theorem counters_set (s : FastCache K V) (k : K) (v : V) :
    (s.set k v).hits = s.hits ∧ (s.set k v).misses = s.misses := by
  cases hk : alookup s.cache k with
  | some id =>
    cases hn : alookup s.nodes id with
    | none => rw [set_eq_self_of_no_node hk hn]; exact ⟨rfl, rfl⟩
    | some n => rw [set_eq_of_some hk hn]; exact ⟨rfl, rfl⟩
  | none =>
    by_cases hfull : s.cache.length ≥ s.maxSize
    · rw [set_eq_of_none_full hk hfull]
      exact counters_removeTail s
    · rw [set_eq_of_none_fits hk (by omega)]
      exact ⟨rfl, rfl⟩

theorem counters_delete (s : FastCache K V) (k : K) :
    (s.delete k).2.hits = s.hits ∧ (s.delete k).2.misses = s.misses := by
  cases hk : alookup s.cache k with
  | none => rw [delete_eq_of_none hk]; exact ⟨rfl, rfl⟩
  | some id => rw [delete_eq_of_some hk]; exact ⟨rfl, rfl⟩

theorem inv_runOp {s : FastCache K V} (h : Inv s) (op : CacheOp K V) :
    Inv (runOp s op) := by
  cases op with
  | setOp k v => exact inv_set h k v
  | getOp k => exact inv_get h k
  | delOp k => exact inv_delete h k

/-- The recorded counters are exactly the specification-side counts. -/
theorem counters_runOps {s : FastCache K V} (h : Inv s)
    (ops : List (CacheOp K V)) :
    (runOps s ops).hits = s.hits + specHits s ops ∧
    (runOps s ops).misses = s.misses + specMisses s ops := by
  induction ops generalizing s with
  | nil => exact ⟨rfl, rfl⟩
  | cons op rest ih =>
    obtain ⟨ha, hb⟩ := ih (inv_runOp h op)
    cases op with
    | setOp k v =>
      obtain ⟨c1, c2⟩ := counters_set s k v
      refine ⟨?_, ?_⟩
      · show ((s.set k v).runOps rest).hits = s.hits + specHits s (.setOp k v :: rest)
        rw [specHits]
        rw [show runOp s (.setOp k v) = s.set k v from rfl] at ha
        rw [ha, c1]
      · show ((s.set k v).runOps rest).misses = s.misses + specMisses s (.setOp k v :: rest)
        rw [specMisses]
        rw [show runOp s (.setOp k v) = s.set k v from rfl] at hb
        rw [hb, c2]
    | getOp k =>
      obtain ⟨c1, c2⟩ := counters_get h k
      refine ⟨?_, ?_⟩
      · show ((s.get k).2.runOps rest).hits = s.hits + specHits s (.getOp k :: rest)
        rw [specHits]
        rw [show runOp s (.getOp k) = (s.get k).2 from rfl] at ha
        rw [ha, c1]
        omega
      · show ((s.get k).2.runOps rest).misses = s.misses + specMisses s (.getOp k :: rest)
        rw [specMisses]
        rw [show runOp s (.getOp k) = (s.get k).2 from rfl] at hb
        rw [hb, c2]
        omega
    | delOp k =>
      obtain ⟨c1, c2⟩ := counters_delete s k
      refine ⟨?_, ?_⟩
      · show ((s.delete k).2.runOps rest).hits = s.hits + specHits s (.delOp k :: rest)
        rw [specHits]
        rw [show runOp s (.delOp k) = (s.delete k).2 from rfl] at ha
        rw [ha, c1]
      · show ((s.delete k).2.runOps rest).misses = s.misses + specMisses s (.delOp k :: rest)
        rw [specMisses]
        rw [show runOp s (.delOp k) = (s.delete k).2 from rfl] at hb
        rw [hb, c2]

end FastCache

theorem aset_aset {K A : Type} [DecidableEq K] (l : List (K × A)) (k : K) (a b : A) :
    aset (aset l k a) k b = aset l k b := by
  induction l with
  | nil => simp [aset]
  | cons p rest ih =>
    obtain ⟨pk, pb⟩ := p
    by_cases hk : k = pk
    · subst hk; simp [aset]
    · simp [aset, hk, ih]

namespace FastCacheWithTTL

variable {K V : Type} [DecidableEq K]

theorem ttl_delete_eq_of_none {s : FastCacheWithTTL K V} {key : K}
    (h : alookup s.cache key = none) : s.delete key = (false, s) := by
  unfold delete
  rw [h]

theorem ttl_delete_eq_of_some {s : FastCacheWithTTL K V} {key : K} {id : Nat}
    (h : alookup s.cache key = some id) :
    s.delete key =
      (true, { s with
                timeList := s.timeList.erase id,
                cache := aerase s.cache key,
                recency := s.recency.erase id }) := by
  unfold delete removeFromTimeList
  rw [h]
  dsimp only
  rw [FastCache.delete_eq_of_some (s := s.toFastCache) h]

end FastCacheWithTTL

namespace FastCacheWithTTL

variable {K V : Type} [DecidableEq K]

theorem ttl_get_eq_of_none {s : FastCacheWithTTL K V} {key : K} (now : Nat)
    (h : alookup s.cache key = none) :
    s.get key now = (none, { s with misses := s.misses + 1 }) := by
  unfold get
  rw [h]

theorem get_eq_expired {s : FastCacheWithTTL K V} {key : K} {id : Nat}
    {n : CacheNode K V} {now : Nat}
    (hk : alookup s.cache key = some id) (hn : alookup s.nodes id = some n)
    (he : s.isExpired n now = true) :
    s.get key now =
      (none, { s with
                timeList := s.timeList.erase id,
                cache := aerase s.cache key,
                recency := s.recency.erase id,
                expired := s.expired + 1,
                misses := s.misses + 1 }) := by
  unfold get
  rw [hk]
  dsimp only
  rw [hn]
  dsimp only
  rw [if_pos he]
  rw [ttl_delete_eq_of_some hk]

theorem get_eq_live {s : FastCacheWithTTL K V} {key : K} {id : Nat}
    {n : CacheNode K V} {now : Nat}
    (hk : alookup s.cache key = some id) (hn : alookup s.nodes id = some n)
    (he : s.isExpired n now = false) :
    s.get key now =
      (some n.value, { s with
                        recency := id :: s.recency.erase id,
                        hits := s.hits + 1 }) := by
  unfold get
  rw [hk]
  dsimp only
  rw [hn]
  dsimp only
  rw [if_neg (by rw [he]; exact Bool.false_ne_true)]
  rw [FastCache.get_eq_of_some (s := s.toFastCache) hk hn]

theorem set_eq_update {s : FastCacheWithTTL K V} {key : K} {id : Nat}
    {n : CacheNode K V} (value : V) (now : Nat)
    (hk : alookup s.cache key = some id) (hn : alookup s.nodes id = some n) :
    s.set key value now =
      { s with
          nodes := aset s.nodes id
            { key := n.key, value := value,
              timestamp := some (if 0 < s.ttl then now else 0) },
          recency := id :: s.recency.erase id,
          timeList := s.timeList.erase id ++ [id] } := by
  unfold set moveToTimeListTail removeFromTimeList addToTimeListTail
  dsimp only
  rw [FastCache.set_eq_of_some (s := s.toFastCache) hk hn]
  dsimp only
  rw [hk]
  dsimp only
  rw [alookup_aset_self]
  dsimp only
  rw [aset_aset]

end FastCacheWithTTL

namespace FastCacheWithTTL

variable {K V : Type} [DecidableEq K]

/-- Override of the `size` accessor. -/
def size (s : FastCacheWithTTL K V) : Nat :=
  s.cache.length

/-- If the head of the time list is an expired node whose key is absent
from the index (a stale node left behind by a capacity eviction), the
`cleanup()` loop makes no progress: `delete` is a no-op, the head is
re-read unchanged, and the loop never terminates whatever the fuel. -/
theorem cleanupLoop_stale {now i : Nat} {n : CacheNode K V} :
    ∀ (fuel : Nat) (s : FastCacheWithTTL K V) (count : Nat),
      s.timeList.head? = some i → alookup s.nodes i = some n →
      alookup s.cache n.key = none → s.isExpired n now = true →
      cleanupLoop now fuel s count = none := by
  intro fuel
  induction fuel with
  | zero => intro s count _ _ _ _; rfl
  | succ fuel ih =>
    intro s count hhead hn hcache hexp
    unfold cleanupLoop
    rw [hhead]
    dsimp only
    rw [hn]
    dsimp only
    rw [if_pos hexp]
    rw [ttl_delete_eq_of_none hcache]
    exact ih _ _ hhead hn hcache hexp

end FastCacheWithTTL

/-! ## Concrete states used by the claims -/

/-- State of `new FastCacheWithTTL({maxSize: 1, ttl: 100})`. -/
def demoTTL1 : FastCacheWithTTL Nat Nat :=
  { maxSize := 1, ttl := 100 }

/-- Sanity: `demoTTL1` is exactly what the constructor builds. -/
theorem demoTTL1_constructed :
    FastCacheWithTTL.mk? (K := Nat) (V := Nat)
      { maxSize := 1, ttl := some 100 } = .ok demoTTL1 := rfl

/-- Result of `set` of key 1 then `set` of key 2 (both at time 0) on `demoTTL1`.  The
second `set` evicts key 1 through the un-overridden
`FastCache.removeTail`. -/
def evictedState : FastCacheWithTTL Nat Nat :=
  (demoTTL1.set 1 10 0).set 2 20 0

/-- C1 — the code violates the dual-list consistency invariant.
On a TTL cache of capacity 1 with ttl 100, after a `set` of key 1 and a
`set` of key 2 (a capacity-triggered eviction of key 1), the node of key 1
(id 0) is still reachable in the time list although it has been removed
from the index and from the recency list: `FastCacheWithTTL` does not
override `removeTail`, so an LRU eviction never touches the time list. -/
theorem C1_eviction_leaves_stale_time_node :
    evictedState.timeList = [0, 1] ∧
    alookup evictedState.nodes 0 =
      some { key := 1, value := 10, timestamp := some 0 } ∧
    alookup evictedState.cache 1 = none ∧
    0 ∉ evictedState.recency := by
  decide

/-- C5 — on the reachable state `evictedState`, `cleanup()` at time 200
never terminates: the stale evicted node of key 1 sits at the head of the
time list, is seen as expired, but deleting its key is a no-op, so the loop
re-reads the same head forever (no fuel suffices).  The claim's sweep
contract (remove all and only expired entries, return their count) is
therefore violated on reachable states. -/
theorem C5_cleanup_never_terminates :
    ∀ fuel : Nat, FastCacheWithTTL.cleanup evictedState 200 fuel = none := by
  intro fuel
  unfold FastCacheWithTTL.cleanup
  rw [if_neg (by decide : ¬evictedState.ttl = 0)]
  exact FastCacheWithTTL.cleanupLoop_stale
    (i := 0) (n := { key := 1, value := 10, timestamp := some 0 })
    fuel evictedState 0 (by decide) (by decide) (by decide) (by decide)

/-- The LRU scenario of C6: capacity 3, `set A,B,C`, `get A`, `set D`. -/
def lruDemo : FastCache Nat Nat :=
  ((((((FastCache.init 3).set 1 100).set 2 200).set 3 300).get 1).2).set 4 400

/-- C6 — LRU eviction order: after `set A; set B; set C; get A; set D`
on a capacity-3 cache (keys A,B,C,D are 1,2,3,4), B is evicted, the live
keys are exactly A, C, D, and the recency list head→tail reads D, A, C. -/
theorem C6_lru_eviction_order :
    lruDemo.recency.map (fun i => (alookup lruDemo.nodes i).map CacheNode.key) =
      [some 4, some 1, some 3] ∧
    alookup lruDemo.cache 2 = none ∧
    (alookup lruDemo.cache 1).isSome = true ∧
    (alookup lruDemo.cache 3).isSome = true ∧
    (alookup lruDemo.cache 4).isSome = true ∧
    lruDemo.cache.map Prod.fst = [1, 3, 4] ∧
    lruDemo.size = 3 := by
  decide

/-- C2 — capacity invariant: on every cache reachable by a sequence of
`set` calls from a fresh cache of capacity `c > 0`, `size ≤ c`; when
`size = c`, a `set` of a present key leaves the index unchanged (no
eviction) while a `set` of a new key removes exactly the recency-list
tail node before inserting, keeping `size = c` and every other key. -/
theorem C2_capacity_invariant {K V : Type} [DecidableEq K]
    (c : Nat) (hc : 0 < c) (ops : List (K × V))
    (s : FastCache K V) (hs : s = FastCache.runSets (FastCache.init c) ops) :
    s.size ≤ c ∧
    (s.size = c → ∀ (key : K) (value : V),
      ((alookup s.cache key).isSome → (s.set key value).cache = s.cache) ∧
      (alookup s.cache key = none →
        ∃ tid n, s.recency.getLast? = some tid ∧
          alookup s.nodes tid = some n ∧
          alookup (s.set key value).cache n.key = none ∧
          (alookup (s.set key value).cache key).isSome = true ∧
          (s.set key value).size = c ∧
          ∀ k', k' ≠ key → k' ≠ n.key →
            alookup (s.set key value).cache k' = alookup s.cache k')) := by
  have hrun := FastCache.runSets_invariant
    (FastCache.inv_init (K := K) (V := V) c hc) (Nat.zero_le _) ops
  have hinv : FastCache.Inv s := by rw [hs]; exact hrun.1
  have hle : s.size ≤ s.maxSize := by rw [hs]; exact hrun.2.1
  have hmax : s.maxSize = c := by rw [hs]; exact hrun.2.2
  constructor
  · rw [← hmax]; exact hle
  · intro hsize key value
    constructor
    · intro hksome
      obtain ⟨i, hk⟩ := Option.isSome_iff_exists.mp hksome
      cases hn : alookup s.nodes i with
      | none => rw [FastCache.set_eq_self_of_no_node hk hn]
      | some n => rw [FastCache.set_eq_of_some hk hn]
    · intro hknone
      have hsz : s.cache.length = c := hsize
      have hge : s.cache.length ≥ s.maxSize := by omega
      have hne : s.cache ≠ [] := by
        intro h0
        rw [h0] at hsz
        simp at hsz
        omega
      obtain ⟨tid, n, hlast, hn, hcn⟩ := hinv.exists_tail hne
      have hkey_ne : key ≠ n.key := by
        intro he
        rw [he, hcn] at hknone
        exact Option.noConfusion hknone
      rw [FastCache.set_eq_of_none_full hknone hge, FastCache.removeTail_eq hlast hn]
      refine ⟨tid, n, hlast, hn, ?_, ?_, ?_, ?_⟩
      · show alookup (aset (aerase s.cache n.key) key s.nextId) n.key = none
        rw [alookup_aset_of_ne _ _ (Ne.symm hkey_ne)]
        exact alookup_aerase_self _ _ hinv.cacheNodup
      · show (alookup (aset (aerase s.cache n.key) key s.nextId) key).isSome = true
        rw [alookup_aset_self]
        rfl
      · show (aset (aerase s.cache n.key) key s.nextId).length = c
        have h1 : alookup (aerase s.cache n.key) key = none := by
          rw [alookup_aerase_of_ne _ hkey_ne]
          exact hknone
        rw [length_aset_of_none _ h1]
        have h2 := length_aerase_of_some hcn
        omega
      · intro k' h1 h2
        show alookup (aset (aerase s.cache n.key) key s.nextId) k' =
          alookup s.cache k'
        rw [alookup_aset_of_ne _ _ h1, alookup_aerase_of_ne _ h2]

/-- Capacity-1 cache after one `set` of key 1, for the C2 witness. -/
def c2w : FastCache Nat Nat :=
  FastCache.runSets (FastCache.init 1) [(1, 10)]

/-- Witness for C2: the concrete capacity-1 cache after one `set`. -/
theorem C2_capacity_invariant_witness :
    c2w.size ≤ 1 ∧
    (c2w.size = 1 → ∀ (key : Nat) (value : Nat),
      ((alookup c2w.cache key).isSome → (c2w.set key value).cache = c2w.cache) ∧
      (alookup c2w.cache key = none →
        ∃ tid n, c2w.recency.getLast? = some tid ∧
          alookup c2w.nodes tid = some n ∧
          alookup (c2w.set key value).cache n.key = none ∧
          (alookup (c2w.set key value).cache key).isSome = true ∧
          (c2w.set key value).size = 1 ∧
          ∀ k', k' ≠ key → k' ≠ n.key →
            alookup (c2w.set key value).cache k' = alookup c2w.cache k')) :=
  C2_capacity_invariant 1 (by decide) [(1, 10)] c2w rfl

/-- C3 — lazy expiration on `get`: an expired hit is treated as a miss
(deleted from index, recency list and time list, `misses` and `expired`
each +1, size −1); a live hit returns the stored value and bumps only
`hits`. -/
theorem C3_lazy_expiration_on_get {K V : Type} [DecidableEq K]
    (s : FastCacheWithTTL K V) (key : K) (i : Nat) (n : CacheNode K V) (now : Nat)
    (hk : alookup s.cache key = some i) (hn : alookup s.nodes i = some n)
    (hnodup : (s.cache.map Prod.fst).Nodup) (hrec : s.recency.Nodup)
    (htl : s.timeList.Nodup) :
    (s.isExpired n now = true →
      (s.get key now).1 = none ∧
      alookup (s.get key now).2.cache key = none ∧
      i ∉ (s.get key now).2.recency ∧
      i ∉ (s.get key now).2.timeList ∧
      (s.get key now).2.size + 1 = s.size ∧
      (s.get key now).2.misses = s.misses + 1 ∧
      (s.get key now).2.expired = s.expired + 1 ∧
      (s.get key now).2.hits = s.hits) ∧
    (s.isExpired n now = false →
      (s.get key now).1 = some n.value ∧
      (s.get key now).2.hits = s.hits + 1 ∧
      (s.get key now).2.misses = s.misses ∧
      (s.get key now).2.expired = s.expired ∧
      (s.get key now).2.size = s.size) := by
  constructor
  · intro he
    rw [FastCacheWithTTL.get_eq_expired hk hn he]
    refine ⟨rfl, ?_, ?_, ?_, ?_, rfl, rfl, rfl⟩
    · exact alookup_aerase_self _ _ hnodup
    · exact hrec.not_mem_erase
    · exact htl.not_mem_erase
    · show (aerase s.cache key).length + 1 = s.cache.length
      exact length_aerase_of_some hk
  · intro he
    rw [FastCacheWithTTL.get_eq_live hk hn he]
    exact ⟨rfl, rfl, rfl, rfl, rfl⟩

/-- TTL cache of capacity 10 and ttl 100. -/
def ttlDemo10 : FastCacheWithTTL Nat Nat :=
  { maxSize := 10, ttl := 100 }

/-- State of `ttlDemo10` after a `set` of key 5 (value 7) at time 0. -/
def c3w : FastCacheWithTTL Nat Nat :=
  ttlDemo10.set 5 7 0

/-- Witness for C3: a `get` of key 5 at time 150 on an entry stamped at 0
with ttl 100. -/
theorem C3_lazy_expiration_on_get_witness :
    (c3w.isExpired { key := 5, value := 7, timestamp := some 0 } 150 = true →
      (c3w.get 5 150).1 = none ∧
      alookup (c3w.get 5 150).2.cache 5 = none ∧
      0 ∉ (c3w.get 5 150).2.recency ∧
      0 ∉ (c3w.get 5 150).2.timeList ∧
      (c3w.get 5 150).2.size + 1 = c3w.size ∧
      (c3w.get 5 150).2.misses = c3w.misses + 1 ∧
      (c3w.get 5 150).2.expired = c3w.expired + 1 ∧
      (c3w.get 5 150).2.hits = c3w.hits) ∧
    (c3w.isExpired { key := 5, value := 7, timestamp := some 0 } 150 = false →
      (c3w.get 5 150).1 =
        some (CacheNode.value { key := 5, value := 7, timestamp := some 0 }) ∧
      (c3w.get 5 150).2.hits = c3w.hits + 1 ∧
      (c3w.get 5 150).2.misses = c3w.misses ∧
      (c3w.get 5 150).2.expired = c3w.expired ∧
      (c3w.get 5 150).2.size = c3w.size) :=
  C3_lazy_expiration_on_get c3w 5 0 { key := 5, value := 7, timestamp := some 0 }
    150 (by decide) (by decide) (by decide) (by decide) (by decide)

/-- State of `ttlDemo10` after a `set` of key 7 (value 1) at time 0. -/
def c7Base : FastCacheWithTTL Nat Nat :=
  ttlDemo10.set 7 1 0

/-- State of `c7Base` after overwriting key 7 with value 2 at time 80. -/
def c7Overwritten : FastCacheWithTTL Nat Nat :=
  c7Base.set 7 2 80

/-- C7 — TTL refresh on overwrite: `set` on a present key restamps the
node with the current time and splices it to the time-list tail; with
ttl 100, an entry set at 0 and overwritten at 80 is present at 130 and
absent at 181. -/
theorem C7_ttl_refresh_on_overwrite {K V : Type} [DecidableEq K]
    (s : FastCacheWithTTL K V) (key : K) (value : V) (now : Nat) (i : Nat)
    (n : CacheNode K V) (ht : 0 < s.ttl)
    (hk : alookup s.cache key = some i) (hn : alookup s.nodes i = some n) :
    (alookup (s.set key value now).nodes i =
        some { key := n.key, value := value, timestamp := some now } ∧
      (s.set key value now).timeList = s.timeList.erase i ++ [i] ∧
      (s.set key value now).timeList.getLast? = some i) ∧
    ((c7Overwritten.get 7 130).1 = some 2 ∧
      (c7Overwritten.get 7 181).1 = none) := by
  refine ⟨?_, by decide, by decide⟩
  rw [FastCacheWithTTL.set_eq_update value now hk hn]
  refine ⟨?_, rfl, ?_⟩
  · show alookup (aset s.nodes i _) i = _
    rw [alookup_aset_self, if_pos ht]
  · show (s.timeList.erase i ++ [i]).getLast? = some i
    exact List.getLast?_concat _

/-- Witness for C7: overwriting key 7 at time 80 on `c7Base`. -/
theorem C7_ttl_refresh_on_overwrite_witness :
    (alookup (c7Base.set 7 2 80).nodes 0 =
        some { key := CacheNode.key { key := 7, value := 1, timestamp := some 0 },
               value := 2, timestamp := some 80 } ∧
      (c7Base.set 7 2 80).timeList = c7Base.timeList.erase 0 ++ [0] ∧
      (c7Base.set 7 2 80).timeList.getLast? = some 0) ∧
    ((c7Overwritten.get 7 130).1 = some 2 ∧
      (c7Overwritten.get 7 181).1 = none) :=
  C7_ttl_refresh_on_overwrite c7Base 7 2 80 0
    { key := 7, value := 1, timestamp := some 0 }
    (by decide) (by decide) (by decide)

/-- C8 — a `get` never renews the TTL: on a live hit the node store (and
thus the node's timestamp) and the time list are untouched; only the
recency list and the hit counter change, and the stored value is
returned. -/
theorem C8_get_never_renews_ttl {K V : Type} [DecidableEq K]
    (s : FastCacheWithTTL K V) (key : K) (now : Nat) (i : Nat) (n : CacheNode K V)
    (hk : alookup s.cache key = some i) (hn : alookup s.nodes i = some n)
    (he : s.isExpired n now = false) :
    (s.get key now).1 = some n.value ∧
    (s.get key now).2.nodes = s.nodes ∧
    alookup (s.get key now).2.nodes i = some n ∧
    (s.get key now).2.timeList = s.timeList ∧
    (s.get key now).2.recency = i :: s.recency.erase i ∧
    (s.get key now).2.hits = s.hits + 1 ∧
    (s.get key now).2.misses = s.misses ∧
    (s.get key now).2.expired = s.expired ∧
    (s.get key now).2.cache = s.cache := by
  rw [FastCacheWithTTL.get_eq_live hk hn he]
  exact ⟨rfl, rfl, hn, rfl, rfl, rfl, rfl, rfl, rfl⟩

/-- Witness for C8: a live `get` of key 7 at time 50 on `c7Base`. -/
theorem C8_get_never_renews_ttl_witness :
    (c7Base.get 7 50).1 =
      some (CacheNode.value { key := 7, value := 1, timestamp := some 0 }) ∧
    (c7Base.get 7 50).2.nodes = c7Base.nodes ∧
    alookup (c7Base.get 7 50).2.nodes 0 =
      some { key := 7, value := 1, timestamp := some 0 } ∧
    (c7Base.get 7 50).2.timeList = c7Base.timeList ∧
    (c7Base.get 7 50).2.recency = 0 :: c7Base.recency.erase 0 ∧
    (c7Base.get 7 50).2.hits = c7Base.hits + 1 ∧
    (c7Base.get 7 50).2.misses = c7Base.misses ∧
    (c7Base.get 7 50).2.expired = c7Base.expired ∧
    (c7Base.get 7 50).2.cache = c7Base.cache :=
  C8_get_never_renews_ttl c7Base 7 50 0
    { key := 7, value := 1, timestamp := some 0 }
    (by decide) (by decide) (by decide)

/-- Options requesting active cleanup with a non-positive interval. -/
def badOptions : CacheOptions :=
  { maxSize := 1, ttl := some 100, autoCleanup := true, cleanupInterval := some 0 }

/-- C4 counterexample — the claim, as stated, is false: `badOptions`
requests active cleanup with the non-positive interval 0, yet
construction succeeds (the constructor never validates
`cleanupInterval`). -/
theorem C4_counterexample :
    badOptions.autoCleanup = true ∧
    badOptions.cleanupInterval = some 0 ∧
    (0 : Int) ≤ 0 ∧
    FastCacheWithTTL.mk? (K := Nat) (V := Nat) badOptions =
      .ok { maxSize := 1, ttl := 100, autoCleanup := true } :=
  ⟨rfl, rfl, le_refl 0, rfl⟩

/-- C4 (amended) — construction raises exactly when `maxSize ≤ 0` or
when `ttl` is supplied and ≤ 0; a non-positive `cleanupInterval` is not
validated.  Construction is atomic: the result is either an error or a
fully built cache, never both. -/
theorem C4_construction_validation (o : CacheOptions) :
    ((∃ e, FastCacheWithTTL.mk? (K := Nat) (V := Nat) o = .error e) ↔
      (o.maxSize ≤ 0 ∨ ∃ t, o.ttl = some t ∧ t ≤ 0)) ∧
    ((∃ s, FastCacheWithTTL.mk? (K := Nat) (V := Nat) o = .ok s) ↔
      ¬(o.maxSize ≤ 0 ∨ ∃ t, o.ttl = some t ∧ t ≤ 0)) := by
  obtain ⟨ms, ot, ac, ci⟩ := o
  unfold FastCacheWithTTL.mk? FastCache.mk?
  by_cases hms : ms ≤ 0
  · rw [if_pos hms]
    simp [hms]
  · rw [if_neg hms]
    cases ot with
    | none => simp [hms]
    | some t =>
      by_cases htl : t ≤ 0
      · simp [hms, htl]
      · simp [hms, htl]

/-- C9 — stats correctness: over any operation trace from a fresh
cache, the recorded `hits`/`misses` are exactly the specification-side
counts of hitting and missing `get` calls, and `getStats` reports
`hitRate = hits / (hits + misses)` when at least one `get` was recorded
and `hitRate = 0` otherwise. -/
theorem C9_stats_correctness {K V : Type} [DecidableEq K]
    (c : Nat) (hc : 0 < c) (ops : List (FastCache.CacheOp K V))
    (s : FastCache K V) (hs : s = FastCache.runOps (FastCache.init c) ops) :
    s.hits = FastCache.specHits (FastCache.init c) ops ∧
    s.misses = FastCache.specMisses (FastCache.init c) ops ∧
    s.getStats.hits = s.hits ∧
    s.getStats.misses = s.misses ∧
    (0 < s.hits + s.misses →
      s.getStats.hitRate = (s.hits : ℚ) / ((s.hits : ℚ) + (s.misses : ℚ))) ∧
    (s.hits + s.misses = 0 → s.getStats.hitRate = 0) := by
  obtain ⟨h1, h2⟩ :=
    FastCache.counters_runOps (FastCache.inv_init (K := K) (V := V) c hc) ops
  refine ⟨?_, ?_, rfl, rfl, ?_, ?_⟩
  · rw [hs, h1]
    show 0 + _ = _
    rw [Nat.zero_add]
  · rw [hs, h2]
    show 0 + _ = _
    rw [Nat.zero_add]
  · intro hpos
    unfold FastCache.getStats
    dsimp only
    rw [if_pos hpos, Nat.cast_add]
  · intro h0
    unfold FastCache.getStats
    dsimp only
    rw [if_neg (by omega)]

/-- Trace for the C9 witness: `set a; get a (hit); get b (miss)`. -/
def c9ops : List (FastCache.CacheOp Nat Nat) :=
  [.setOp 1 10, .getOp 1, .getOp 2]

/-- The cache state after running `c9ops` from a fresh capacity-2 cache. -/
def c9w : FastCache Nat Nat :=
  FastCache.runOps (FastCache.init 2) c9ops

/-- Witness for C9: one hit and one miss give `hitRate = 1/2`. -/
theorem C9_stats_correctness_witness :
    c9w.hits = FastCache.specHits (FastCache.init 2) c9ops ∧
    c9w.misses = FastCache.specMisses (FastCache.init 2) c9ops ∧
    c9w.getStats.hits = c9w.hits ∧
    c9w.getStats.misses = c9w.misses ∧
    (0 < c9w.hits + c9w.misses →
      c9w.getStats.hitRate = (c9w.hits : ℚ) / ((c9w.hits : ℚ) + (c9w.misses : ℚ))) ∧
    (c9w.hits + c9w.misses = 0 → c9w.getStats.hitRate = 0) :=
  C9_stats_correctness 2 (by decide) c9ops c9w rfl

/-- C10 — calling `delete` on an absent key returns `false` and leaves the
whole state (index, recency list, time list, size and all counters) of
both cache classes unchanged. -/
theorem C10_delete_absent_noop {K V : Type} [DecidableEq K]
    (s : FastCache K V) (t : FastCacheWithTTL K V) (k k' : K)
    (h : alookup s.cache k = none) (h' : alookup t.cache k' = none) :
    s.delete k = (false, s) ∧ t.delete k' = (false, t) :=
  ⟨FastCache.delete_eq_of_none h, FastCacheWithTTL.ttl_delete_eq_of_none h'⟩

/-- Witness for C10: deleting the absent key `"z"` from a fresh LRU cache
and from `demoTTL1`. -/
theorem C10_delete_absent_noop_witness :
    (FastCache.init 2 : FastCache Nat Nat).delete 9 =
      (false, FastCache.init 2) ∧
    demoTTL1.delete 9 = (false, demoTTL1) :=
  C10_delete_absent_noop (FastCache.init 2) demoTTL1 9 9 (by decide) (by decide)
